import Mathlib

/-!
Shallow embedding of `src/unzip.c` (ziptools), the entry-selection engine and
the `main` control flow, together with models of the external collaborators it
calls (`fnmatch` from libc, `zip_name_locate` from libzip) and of the bitset
component whose implementation (`bitset.h`/`bitset.c`) is not part of the
source tree.

Entry names and tokens are Lean `String`s; an archive is the list of its entry
names in directory order (index = list position).
-/

/-- Modelled from the spec: the Membership Set (`bitset.h` is declared but its
implementation is not in the source tree).  §4.1: a fixed-size index-addressable
set over entry ordinals; `size` is fixed at creation, `bits` holds one boolean
per entry index. -/
structure bitset_t where
  size : Nat
  bits : List Bool
deriving DecidableEq

instance : Inhabited bitset_t := ⟨⟨0, []⟩⟩

/-- Modelled from the spec: `create(n)` returns a set sized for `n` entries,
all unmarked. -/
def bitset_new (n : Nat) : bitset_t :=
  ⟨n, List.replicate n false⟩

/-- Modelled from the spec: `mark(i)` marks index `i` (precondition `i < n`;
out-of-range writes are modelled as no-ops since `List.set` is). -/
def bitset_set (b : bitset_t) (i : Nat) : bitset_t :=
  ⟨b.size, b.bits.set i true⟩

/-- Modelled from the spec: `mark_all()` marks every index `0..n-1`. -/
def bitset_set_all (b : bitset_t) : bitset_t :=
  ⟨b.size, List.replicate b.size true⟩

/-- Modelled from the spec: `is_marked(i)` returns the current state of bit
`i`; unset and out-of-range both read as `false`. -/
def bitset_get (b : bitset_t) (i : Nat) : Bool :=
  b.bits.getD i false

/-- `pattern_t` from `unzip.c`: one user token and its matched flag. -/
structure pattern_t where
  pattern : String
  matched : Bool
deriving DecidableEq

instance : Inhabited pattern_t := ⟨⟨"", false⟩⟩

/-- `GLOB_CHARS` from `unzip.c`: the three glob metacharacters that make a
token count as a glob pattern. -/
def GLOB_CHARS : List Char := ['*', '?', '[']

/-- A token is literal when it contains none of `GLOB_CHARS`; this is the
`strcspn(argv[i], GLOB_CHARS) == strlen(argv[i])` test of `unzip.c`. -/
def isLiteral (t : String) : Bool :=
  !t.data.any (fun c => GLOB_CHARS.contains c)

/-- Model of libzip's `zip_name_locate(archive, name, 0)`: index of the first
entry (archive directory order) whose name equals `name`, else none. -/
def zip_name_locate : List String → String → Option Nat
  | [], _ => none
  | e :: rest, name =>
    if e = name then some 0
    else
      match zip_name_locate rest name with
      | some i => some (i + 1)
      | none => none

/-- Fuel-driven parser for a POSIX bracket expression (the part of the pattern
after `[` and after an optional leading `!`).  Returns the list of character
ranges (a single member `a` is the range `(a, a)`) and the pattern suffix after
the closing `]`, or `none` when the expression is unterminated.  A `]` in first
position is an ordinary member; `\` escapes the next character; `a-b` is a
range; a `-` just before the closing `]` is an ordinary member.  Every step
consumes at least one character, so fuel `cs.length + 1` never runs out. -/
def parseBracketGo : Nat → Bool → List Char → Option (List (Char × Char) × List Char)
  | 0, _, _ => none
  | _ + 1, _, [] => none
  | _ + 1, false, ']' :: rest => some ([], rest)
  | _ + 1, true, ']' :: '-' :: ']' :: rest => some ([(']', ']'), ('-', '-')], rest)
  | fuel + 1, true, ']' :: '-' :: '\\' :: b :: rest =>
    match parseBracketGo fuel false rest with
    | some (rs, r) => some ((']', b) :: rs, r)
    | none => none
  | fuel + 1, true, ']' :: '-' :: b :: rest =>
    match parseBracketGo fuel false rest with
    | some (rs, r) => some ((']', b) :: rs, r)
    | none => none
  | fuel + 1, true, ']' :: rest =>
    match parseBracketGo fuel false rest with
    | some (rs, r) => some ((']', ']') :: rs, r)
    | none => none
  | _ + 1, _, '\\' :: [] => none
  | _ + 1, _, '\\' :: e :: '-' :: ']' :: rest => some ([(e, e), ('-', '-')], rest)
  | fuel + 1, _, '\\' :: e :: '-' :: '\\' :: b :: rest =>
    match parseBracketGo fuel false rest with
    | some (rs, r) => some ((e, b) :: rs, r)
    | none => none
  | fuel + 1, _, '\\' :: e :: '-' :: b :: rest =>
    match parseBracketGo fuel false rest with
    | some (rs, r) => some ((e, b) :: rs, r)
    | none => none
  | fuel + 1, _, '\\' :: e :: rest =>
    match parseBracketGo fuel false rest with
    | some (rs, r) => some ((e, e) :: rs, r)
    | none => none
  | _ + 1, _, a :: '-' :: ']' :: rest => some ([(a, a), ('-', '-')], rest)
  | fuel + 1, _, a :: '-' :: '\\' :: b :: rest =>
    match parseBracketGo fuel false rest with
    | some (rs, r) => some ((a, b) :: rs, r)
    | none => none
  | fuel + 1, _, a :: '-' :: b :: rest =>
    match parseBracketGo fuel false rest with
    | some (rs, r) => some ((a, b) :: rs, r)
    | none => none
  | fuel + 1, _, a :: rest =>
    match parseBracketGo fuel false rest with
    | some (rs, r) => some ((a, a) :: rs, r)
    | none => none

/-- Bracket expression of a pattern whose head was `[`: strips an optional
leading `!` (negation) and parses the class.  Returns ranges, the negation
flag, and the pattern suffix after `]`. -/
def matchBracketClass (ps : List Char) : Option (List (Char × Char) × Bool × List Char) :=
  match ps with
  | '!' :: t =>
    match parseBracketGo (t.length + 1) true t with
    | some (rs, rest) => some (rs, true, rest)
    | none => none
  | _ =>
    match parseBracketGo (ps.length + 1) true ps with
    | some (rs, rest) => some (rs, false, rest)
    | none => none

/-- Fuel-driven model of POSIX `fnmatch(pattern, string, 0)` (libc): `*`
matches any run, `?` any one character, `[...]` a character class, `\`
escapes the next pattern character (a trailing `\` matches nothing), an
unterminated `[` is an ordinary character; matching is case-sensitive with no
special treatment of `/` or leading `.` (flags are 0).  Every recursive call
strictly decreases `pattern.length + name.length`, so the wrapper's fuel
`pattern.length + name.length + 1` never runs out. -/
def fnmatchGo : Nat → List Char → List Char → Bool
  | 0, _, _ => false
  | _ + 1, [], ns => ns.isEmpty
  | fuel + 1, p :: ps, ns =>
    if p = '*' then
      fnmatchGo fuel ps ns ||
        (match ns with
         | [] => false
         | _ :: ns' => fnmatchGo fuel (p :: ps) ns')
    else if p = '?' then
      match ns with
      | [] => false
      | _ :: ns' => fnmatchGo fuel ps ns'
    else if p = '[' then
      match ns with
      | [] => false
      | c :: ns' =>
        match matchBracketClass ps with
        | some (rs, neg, rest) =>
          (neg != rs.any (fun r => decide (r.1 ≤ c) && decide (c ≤ r.2))) &&
            fnmatchGo fuel rest ns'
        | none => (p == c) && fnmatchGo fuel ps ns'
    else if p = '\\' then
      match ps, ns with
      | e :: ps', c :: ns' => (c == e) && fnmatchGo fuel ps' ns'
      | _, _ => false
    else
      match ns with
      | [] => false
      | c :: ns' => (p == c) && fnmatchGo fuel ps ns'

/-- Model of `fnmatch(pattern, name, 0)` over `String`s, returning `true` for
a match (the C call returns 0 on match). -/
def fnmatch (pat name : String) : Bool :=
  fnmatchGo (pat.data.length + name.data.length + 1) pat.data name.data

/-- First loop of the non-empty-token branch of `main` (`unzip.c` lines
163-177): for each token in input order, a literal token is exact-located via
`zip_name_locate` and, when found, its index is marked at once; every token
(literal or glob) is appended to the pattern table with `matched = false`. -/
def tokenPass (entries : List String) : List String → bitset_t → bitset_t × List pattern_t
  | [], s => (s, [])
  | t :: ts, s =>
    let s1 :=
      if isLiteral t then
        match zip_name_locate entries t with
        | some idx => bitset_set s idx
        | none => s
      else s
    let r := tokenPass entries ts s1
    (r.1, ⟨t, false⟩ :: r.2)

/-- Inner loop of the glob pass (`unzip.c` lines 180-187): test the patterns
in input order against one entry name; on the first match set that pattern's
matched flag and report a hit (the `break`), leaving later patterns untested. -/
def globInner (name : String) : List pattern_t → List pattern_t × Bool
  | [] => ([], false)
  | p :: ps =>
    if fnmatch p.pattern name then
      ({ p with matched := true } :: ps, true)
    else
      let r := globInner name ps
      (p :: r.1, r.2)

/-- Outer loop of the glob pass (`unzip.c` lines 179-188): visit the entries
in index order starting at `start`; when the inner loop hits, mark the entry's
index in the membership set. -/
def globPass : Nat → List String → bitset_t → List pattern_t → bitset_t × List pattern_t
  | _, [], s, ps => (s, ps)
  | i, name :: rest, s, ps =>
    let r := globInner name ps
    globPass (i + 1) rest (if r.2 then bitset_set s i else s) r.1

/-- The selection engine of `main` (`unzip.c` lines 151-197): allocate the
membership set sized to the entry count; with no tokens mark everything and
create no pattern records; otherwise run the literal pass then the glob pass.
Returns the membership set and the final pattern table. -/
def zipSelect (entries tokens : List String) : bitset_t × List pattern_t :=
  match tokens with
  | [] => (bitset_set_all (bitset_new entries.length), [])
  | t :: ts =>
    let r := tokenPass entries (t :: ts) (bitset_new entries.length)
    globPass 0 entries r.1 r.2

/-- Diagnostic loop of `unzip.c` lines 190-194: the tokens reported as
"pattern not matched" are exactly those whose matched flag is still false. -/
def unmatchedPatterns (ps : List pattern_t) : List String :=
  (ps.filter (fun p => !p.matched)).map (fun p => p.pattern)

/-- `runmode_t` from `unzip.c`: the mutually exclusive run modes. -/
inductive runmode_t
  | MODE_EXTRACT
  | MODE_LIST
  | MODE_TEST
deriving DecidableEq

/-- Reason a run of the option loop terminates the process: `-h` and `-V`
print and exit 0; a second mode flag hits the "only one mode selection
allowed" branch; an unrecognized option prints usage and exits 1. -/
inductive OptExit
  | helpExit
  | versionExit
  | modeConflict
  | badOption
deriving DecidableEq

/-- Exit code carried by each early exit of the option loop (`unzip.c` lines
114-139). -/
def optExitCode : OptExit → Nat
  | .helpExit => 0
  | .versionExit => 0
  | .modeConflict => 1
  | .badOption => 1

/-- The `getopt_long` switch of `main` (`unzip.c` lines 112-140), acting on
the stream of option characters that getopt yields (getopt itself is libc and
is modelled by its output stream).  `-l`/`-t` each reject a runmode that is
already set away from `MODE_EXTRACT`; `-h`/`-V` exit 0; anything else is an
unrecognized option. -/
def optLoop : runmode_t → List Char → Except OptExit runmode_t
  | m, [] => Except.ok m
  | m, c :: cs =>
    if c = 'h' then Except.error OptExit.helpExit
    else if c = 'l' then
      if m ≠ runmode_t.MODE_EXTRACT then Except.error OptExit.modeConflict
      else optLoop runmode_t.MODE_LIST cs
    else if c = 't' then
      if m ≠ runmode_t.MODE_EXTRACT then Except.error OptExit.modeConflict
      else optLoop runmode_t.MODE_TEST cs
    else if c = 'V' then Except.error OptExit.versionExit
    else Except.error OptExit.badOption

/-- How one process run ends: a normal termination with an exit code, or
undefined behavior (`unzip.c` dereferences the NULL pattern table when its
`malloc` fails, because the `/* die */ ` branch at line 161 is empty). -/
inductive Outcome
  | exited (code : Nat)
  | crashed
deriving DecidableEq

/-- The mode switch at the end of `main` (`unzip.c` lines 199-219).
`MODE_EXTRACT`'s body is commented out and exits 1; `MODE_TEST` runs
`test_archive` (an external collaborator, its return value is a parameter
here) but then exits 1 unconditionally, discarding that value; `MODE_LIST`
stores `list_archive`'s return value, exits 1 if `zip_close` fails, and
otherwise returns that value as the process exit code. -/
def runDispatch : runmode_t → Bool → Nat → Nat → Outcome
  | runmode_t.MODE_EXTRACT, _, _, _ => Outcome.exited 1
  | runmode_t.MODE_LIST, closeOk, list_archive_ret, _ =>
    if closeOk then Outcome.exited list_archive_ret else Outcome.exited 1
  | runmode_t.MODE_TEST, _, _, _ => Outcome.exited 1

/-- The `main` routine of `unzip.c` (lines 102-220; named `unzipMain` here
since Lean reserves `main`), parameterized by its external world:
`opts` is the option-character stream getopt yields, `args` the positional
arguments after it (archive path then tokens), `openResult` the entry list of
the archive when `zip_open` succeeds, `patternsAllocOk` whether the pattern
table `malloc` at line 160 succeeds, `closeOk` whether `zip_close` succeeds,
and the last two the return values of the external `list_archive` and
`test_archive`.  With no archive path or a failed open it exits 1.  With
tokens present and a failed pattern-table `malloc` the `/* die */ ` branch is
empty, so line 174 writes through a NULL pointer: modelled as `crashed`.
Otherwise the selection engine (`zipSelect`, whose result feeds the downstream
mode and the diagnostics but not the exit code) runs and the mode switch
decides the outcome. -/
def unzipMain (opts : List Char) (args : List String) (openResult : Option (List String))
    (patternsAllocOk : Bool) (closeOk : Bool)
    (list_archive_ret test_archive_ret : Nat) : Outcome :=
  match optLoop runmode_t.MODE_EXTRACT opts with
  | Except.error e => Outcome.exited (optExitCode e)
  | Except.ok runmode =>
    match args with
    | [] => Outcome.exited 1
    | _ :: tokens =>
      match openResult with
      | none => Outcome.exited 1
      | some entries =>
        match tokens with
        | [] => runDispatch runmode closeOk list_archive_ret test_archive_ret
        | _ :: _ =>
          if patternsAllocOk then
            let _sel := zipSelect entries tokens
            runDispatch runmode closeOk list_archive_ret test_archive_ret
          else Outcome.crashed

/-! ### Basic facts about the membership set -/

theorem bitset_get_set (b : bitset_t) (i j : Nat) :
    bitset_get (bitset_set b i) j =
      (bitset_get b j || (decide (j = i) && decide (i < b.bits.length))) := by
  simp only [bitset_get, bitset_set, List.getD_eq_getElem?_getD, List.getElem?_set]
  rcases Decidable.em (i = j) with h | h
  · subst h
    rcases Decidable.em (i < b.bits.length) with hl | hl
    · simp [hl]
    · simp [hl, List.getElem?_eq_none (Nat.le_of_not_lt hl)]
  · have h' : ¬j = i := fun hh => h hh.symm
    simp [h, h']

theorem bitset_get_set_of_get (b : bitset_t) (i j : Nat)
    (h : bitset_get b j = true) : bitset_get (bitset_set b i) j = true := by
  rw [bitset_get_set, h, Bool.true_or]

theorem bitset_set_bits_length (b : bitset_t) (i : Nat) :
    (bitset_set b i).bits.length = b.bits.length := by
  simp [bitset_set]

theorem bitset_get_new (n i : Nat) : bitset_get (bitset_new n) i = false := by
  simp only [bitset_get, bitset_new, List.getD_eq_getElem?_getD, List.getElem?_replicate]
  rcases Decidable.em (i < n) with h | h <;> simp [h]

theorem bitset_get_set_all (b : bitset_t) (i : Nat) :
    bitset_get (bitset_set_all b) i = decide (i < b.size) := by
  simp only [bitset_get, bitset_set_all, List.getD_eq_getElem?_getD, List.getElem?_replicate]
  rcases Decidable.em (i < b.size) with h | h <;> simp [h]

/-! ### Exact lookup -/

theorem zip_name_locate_spec (entries : List String) (t : String) (i : Nat) :
    zip_name_locate entries t = some i ↔
      (i < entries.length ∧ entries.getD i "" = t ∧
        ∀ k, k < i → entries.getD k "" ≠ t) := by
  induction entries generalizing i with
  | nil => simp [zip_name_locate]
  | cons e rest ih =>
    rw [zip_name_locate]
    rcases Decidable.em (e = t) with he | he
    · simp only [he, if_pos rfl]
      constructor
      · rintro h
        cases h
        exact ⟨Nat.succ_pos _, by simp, by omega⟩
      · rintro ⟨_, hget, hmin⟩
        rcases i with _ | i
        · rfl
        · exact absurd (hmin 0 (Nat.succ_pos _)) (by simp)
    · simp only [if_neg he]
      rcases hrec : zip_name_locate rest t with _ | j
      · constructor
        · intro h
          cases h
        · rintro ⟨hlen, hget, hmin⟩
          rcases i with _ | i
          · exact absurd (by simpa using hget) he
          · have := (ih i).mpr ⟨by simpa using hlen, by simpa using hget,
              fun k hk => by
                have := hmin (k + 1) (by omega)
                simpa using this⟩
            rw [hrec] at this
            cases this
      · have hj := (ih j).mp hrec
        constructor
        · rintro h
          cases h
          refine ⟨by simpa using hj.1, by simpa using hj.2.1, ?_⟩
          rintro k hk
          rcases k with _ | k
          · simpa using he
          · have := hj.2.2 k (by omega)
            simpa using this
        · rintro ⟨hlen, hget, hmin⟩
          rcases i with _ | i
          · exact absurd (by simpa using hget) he
          · have := (ih i).mpr ⟨by simpa using hlen, by simpa using hget,
              fun k hk => by
                have := hmin (k + 1) (by omega)
                simpa using this⟩
            rw [hrec] at this
            cases this
            rfl

/-! ### fnmatch on metacharacter-free strings -/

theorem isLiteral_iff (t : String) :
    isLiteral t = true ↔ ∀ c ∈ t.data, c ≠ '*' ∧ c ≠ '?' ∧ c ≠ '[' := by
  rw [isLiteral, Bool.not_eq_true', List.any_eq_false]
  constructor
  · intro h c hc
    have := h c hc
    simp [GLOB_CHARS, List.contains] at this
    tauto
  · intro h c hc
    have := h c hc
    simp [GLOB_CHARS, List.contains]
    tauto

theorem fnmatchGo_self (fuel : Nat) :
    ∀ cs : List Char, cs.length < fuel →
      (∀ c ∈ cs, c ≠ '*' ∧ c ≠ '?' ∧ c ≠ '[' ∧ c ≠ '\\') →
      fnmatchGo fuel cs cs = true := by
  induction fuel with
  | zero =>
    intro cs h _
    omega
  | succ f ih =>
    intro cs hlen hmeta
    match cs with
    | [] => rfl
    | c :: cs' =>
      have hc := hmeta c (by simp)
      have hrec := ih cs' (by simp at hlen; omega)
        (fun x hx => hmeta x (List.mem_cons_of_mem _ hx))
      show (if c = '*' then _ else _) = true
      rw [if_neg hc.1, if_neg hc.2.1, if_neg hc.2.2.1, if_neg hc.2.2.2]
      simp [hrec]

theorem fnmatch_self_of_literal (t : String) (hlit : isLiteral t = true)
    (hnb : ('\\' : Char) ∉ t.data) : fnmatch t t = true := by
  apply fnmatchGo_self _ _ (by omega)
  intro c hc
  have h3 := (isLiteral_iff t).mp hlit c hc
  exact ⟨h3.1, h3.2.1, h3.2.2, fun hcb => hnb (hcb ▸ hc)⟩

/-! ### The literal pass -/

theorem tokenPass_patterns (entries : List String) (ts : List String) (s : bitset_t) :
    (tokenPass entries ts s).2 = ts.map (fun t => ⟨t, false⟩) := by
  induction ts generalizing s with
  | nil => rfl
  | cons t ts ih => simp [tokenPass, ih]

theorem tokenPass_bits_length (entries : List String) (ts : List String) (s : bitset_t) :
    (tokenPass entries ts s).1.bits.length = s.bits.length := by
  induction ts generalizing s with
  | nil => rfl
  | cons t ts ih =>
    rw [tokenPass]
    by_cases hl : isLiteral t
    · rcases hz : zip_name_locate entries t with _ | idx <;>
        simp [hl, hz, ih, bitset_set_bits_length]
    · simp [hl, ih]

theorem tokenPass_size (entries : List String) (ts : List String) (s : bitset_t) :
    (tokenPass entries ts s).1.size = s.size := by
  induction ts generalizing s with
  | nil => rfl
  | cons t ts ih =>
    rw [tokenPass]
    by_cases hl : isLiteral t
    · rcases hz : zip_name_locate entries t with _ | idx <;>
        simp [hl, hz, ih, bitset_set]
    · simp [hl, ih]

theorem bitset_get_set_true_iff (b : bitset_t) (i j : Nat) :
    bitset_get (bitset_set b i) j = true ↔
      (bitset_get b j = true ∨ (j = i ∧ i < b.bits.length)) := by
  rw [bitset_get_set]
  simp

theorem tokenPass_get (entries : List String) (ts : List String) (s : bitset_t) (i : Nat) :
    bitset_get (tokenPass entries ts s).1 i = true ↔
      (bitset_get s i = true ∨
        ∃ t ∈ ts, isLiteral t = true ∧ zip_name_locate entries t = some i ∧
          i < s.bits.length) := by
  induction ts generalizing s with
  | nil => simp [tokenPass]
  | cons t ts ih =>
    rw [tokenPass]
    by_cases hl : isLiteral t
    · rcases hz : zip_name_locate entries t with _ | idx
      · simp only [hl, if_true, hz]
        rw [ih]
        constructor
        · rintro (h | ⟨t', ht', h1, h2, h3⟩)
          · exact Or.inl h
          · exact Or.inr ⟨t', List.mem_cons_of_mem _ ht', h1, h2, h3⟩
        · rintro (h | ⟨t', ht', h1, h2, h3⟩)
          · exact Or.inl h
          · rcases List.mem_cons.mp ht' with rfl | ht'
            · rw [hz] at h2
              cases h2
            · exact Or.inr ⟨t', ht', h1, h2, h3⟩
      · simp only [hl, if_true, hz]
        rw [ih]
        rw [bitset_get_set_true_iff, bitset_set_bits_length]
        constructor
        · rintro ((h | ⟨rfl, hlt⟩) | ⟨t', ht', h1, h2, h3⟩)
          · exact Or.inl h
          · exact Or.inr ⟨t, List.mem_cons_self _ _, hl, hz, hlt⟩
          · exact Or.inr ⟨t', List.mem_cons_of_mem _ ht', h1, h2, h3⟩
        · rintro (h | ⟨t', ht', h1, h2, h3⟩)
          · exact Or.inl (Or.inl h)
          · rcases List.mem_cons.mp ht' with rfl | ht'
            · rw [hz] at h2
              cases h2
              exact Or.inl (Or.inr ⟨rfl, h3⟩)
            · exact Or.inr ⟨t', ht', h1, h2, h3⟩
    · simp only [hl, if_false]
      rw [ih]
      constructor
      · rintro (h | ⟨t', ht', h1, h2, h3⟩)
        · exact Or.inl h
        · exact Or.inr ⟨t', List.mem_cons_of_mem _ ht', h1, h2, h3⟩
      · rintro (h | ⟨t', ht', h1, h2, h3⟩)
        · exact Or.inl h
        · rcases List.mem_cons.mp ht' with rfl | ht'
          · exact absurd h1 (by simp [hl])
          · exact Or.inr ⟨t', ht', h1, h2, h3⟩

/-! ### The glob pass -/

theorem globInner_length (name : String) (ps : List pattern_t) :
    ((globInner name ps).1).length = ps.length := by
  induction ps with
  | nil => rfl
  | cons p ps ih =>
    rw [globInner]
    by_cases hm : fnmatch p.pattern name <;> simp [hm, ih]

theorem globInner_pattern_getD (name : String) (ps : List pattern_t) (j : Nat) :
    ((globInner name ps).1.getD j default).pattern = (ps.getD j default).pattern := by
  induction ps generalizing j with
  | nil => rfl
  | cons p ps ih =>
    rw [globInner]
    by_cases hm : fnmatch p.pattern name = true
    · rw [if_pos hm]
      rcases j with _ | j
      · rfl
      · rfl
    · rw [if_neg hm]
      rcases j with _ | j
      · rfl
      · simp only [List.getD_cons_succ]
        exact ih j

theorem globInner_hit (name : String) (ps : List pattern_t) :
    (globInner name ps).2 = ps.any (fun p => fnmatch p.pattern name) := by
  induction ps with
  | nil => rfl
  | cons p ps ih =>
    rw [globInner]
    by_cases hm : fnmatch p.pattern name <;> simp [hm, ih]

theorem globInner_matched (name : String) (ps : List pattern_t) (j : Nat)
    (hj : j < ps.length) :
    (((globInner name ps).1.getD j default).matched = true ↔
      ((ps.getD j default).matched = true ∨
        (fnmatch (ps.getD j default).pattern name = true ∧
          ∀ k, k < j → fnmatch (ps.getD k default).pattern name = false))) := by
  induction ps generalizing j with
  | nil => simp at hj
  | cons p ps ih =>
    rw [globInner]
    by_cases hm : fnmatch p.pattern name = true
    · rw [if_pos hm]
      rcases j with _ | j
      · simp [hm]
      · simp only [List.getD_cons_succ]
        constructor
        · intro h
          exact Or.inl h
        · rintro (h | ⟨hfn, hall⟩)
          · exact h
          · have := hall 0 (Nat.succ_pos _)
            rw [List.getD_cons_zero] at this
            rw [hm] at this
            cases this
    · rw [if_neg hm]
      rcases j with _ | j
      · simp only [List.getD_cons_zero]
        constructor
        · intro h
          exact Or.inl h
        · rintro (h | ⟨hfn, _⟩)
          · exact h
          · rw [hfn] at hm
            simp at hm
      · simp only [List.getD_cons_succ]
        rw [ih j (by simpa using hj)]
        constructor
        · rintro (h | ⟨hfn, hall⟩)
          · exact Or.inl h
          · refine Or.inr ⟨hfn, ?_⟩
            rintro k hk
            rcases k with _ | k
            · simpa using hm
            · rw [List.getD_cons_succ]
              exact hall k (by omega)
        · rintro (h | ⟨hfn, hall⟩)
          · exact Or.inl h
          · refine Or.inr ⟨hfn, ?_⟩
            rintro k hk
            have := hall (k + 1) (by omega)
            simpa using this

theorem globInner_any (name : String) (ps : List pattern_t) (n : String) :
    ((globInner name ps).1).any (fun p => fnmatch p.pattern n) =
      ps.any (fun p => fnmatch p.pattern n) := by
  induction ps with
  | nil => rfl
  | cons p ps ih =>
    rw [globInner]
    by_cases hm : fnmatch p.pattern name <;> simp [hm, ih]

theorem globPass_bits_length (names : List String) :
    ∀ (start : Nat) (s : bitset_t) (ps : List pattern_t),
      (globPass start names s ps).1.bits.length = s.bits.length := by
  induction names with
  | nil => intro start s ps; rfl
  | cons n rest ih =>
    intro start s ps
    rw [globPass]
    rw [ih]
    by_cases hm : (globInner n ps).2 <;> simp [hm, bitset_set_bits_length]

theorem globPass_size (names : List String) :
    ∀ (start : Nat) (s : bitset_t) (ps : List pattern_t),
      (globPass start names s ps).1.size = s.size := by
  induction names with
  | nil => intro start s ps; rfl
  | cons n rest ih =>
    intro start s ps
    rw [globPass]
    rw [ih]
    by_cases hm : (globInner n ps).2 <;> simp [hm, bitset_set]

theorem globPass_patterns_length (names : List String) :
    ∀ (start : Nat) (s : bitset_t) (ps : List pattern_t),
      (globPass start names s ps).2.length = ps.length := by
  induction names with
  | nil => intro start s ps; rfl
  | cons n rest ih =>
    intro start s ps
    rw [globPass]
    rw [ih, globInner_length]

theorem globPass_pattern_getD (names : List String) :
    ∀ (start : Nat) (s : bitset_t) (ps : List pattern_t) (j : Nat),
      ((globPass start names s ps).2.getD j default).pattern =
        (ps.getD j default).pattern := by
  induction names with
  | nil => intro start s ps j; rfl
  | cons n rest ih =>
    intro start s ps j
    rw [globPass]
    rw [ih, globInner_pattern_getD]

theorem globPass_get (names : List String) :
    ∀ (start : Nat) (s : bitset_t) (ps : List pattern_t) (i : Nat),
      (bitset_get (globPass start names s ps).1 i = true ↔
        (bitset_get s i = true ∨
          ∃ j, j < names.length ∧ i = start + j ∧ i < s.bits.length ∧
            ps.any (fun p => fnmatch p.pattern (names.getD j "")) = true)) := by
  induction names with
  | nil =>
    intro start s ps i
    rw [globPass]
    simp
  | cons n rest ih =>
    intro start s ps i
    rw [globPass]
    rw [ih]
    by_cases hm : (globInner n ps).2 = true
    · rw [if_pos hm]
      rw [bitset_get_set_true_iff, bitset_set_bits_length]
      have hhit : ps.any (fun p => fnmatch p.pattern n) = true := by
        rw [← globInner_hit]
        exact hm
      constructor
      · rintro ((h | ⟨rfl, hlt⟩) | ⟨j, hj, rfl, hlen, hany⟩)
        · exact Or.inl h
        · exact Or.inr ⟨0, by simp, by omega, hlt, by simpa using hhit⟩
        · rw [globInner_any] at hany
          exact Or.inr ⟨j + 1, by simpa using hj, by omega, hlen, by simpa using hany⟩
      · rintro (h | ⟨j, hj, rfl, hlen, hany⟩)
        · exact Or.inl (Or.inl h)
        · rcases j with _ | j
          · exact Or.inl (Or.inr ⟨by omega, by simpa using hlen⟩)
          · refine Or.inr ⟨j, by simpa using hj, by omega, hlen, ?_⟩
            rw [globInner_any]
            simpa using hany
    · rw [if_neg hm]
      have hhit : ps.any (fun p => fnmatch p.pattern n) = false := by
        rw [← globInner_hit]
        exact Bool.not_eq_true _ ▸ (by simpa using hm)
      constructor
      · rintro (h | ⟨j, hj, rfl, hlen, hany⟩)
        · exact Or.inl h
        · rw [globInner_any] at hany
          exact Or.inr ⟨j + 1, by simpa using hj, by omega, hlen, by simpa using hany⟩
      · rintro (h | ⟨j, hj, rfl, hlen, hany⟩)
        · exact Or.inl h
        · rcases j with _ | j
          · rw [Nat.add_zero] at *
            have : ps.any (fun p => fnmatch p.pattern ((n :: rest).getD 0 "")) = true := hany
            rw [List.getD_cons_zero] at this
            rw [hhit] at this
            cases this
          · refine Or.inr ⟨j, by simpa using hj, by omega, hlen, ?_⟩
            rw [globInner_any]
            simpa using hany

theorem globPass_matched (names : List String) :
    ∀ (start : Nat) (s : bitset_t) (ps : List pattern_t) (j : Nat), j < ps.length →
      ((((globPass start names s ps).2.getD j default).matched = true) ↔
        ((ps.getD j default).matched = true ∨
          ∃ e, e < names.length ∧
            fnmatch (ps.getD j default).pattern (names.getD e "") = true ∧
            ∀ k, k < j → fnmatch (ps.getD k default).pattern (names.getD e "") = false)) := by
  induction names with
  | nil =>
    intro start s ps j hj
    rw [globPass]
    simp
  | cons n rest ih =>
    intro start s ps j hj
    rw [globPass]
    rw [ih _ _ _ j (by rw [globInner_length]; exact hj)]
    rw [globInner_matched n ps j hj]
    constructor
    · rintro ((h | ⟨hfn, hall⟩) | ⟨e, he, hfn, hall⟩)
      · exact Or.inl h
      · exact Or.inr ⟨0, by simp, by simpa using hfn, fun k hk => by simpa using hall k hk⟩
      · rw [globInner_pattern_getD] at hfn
        refine Or.inr ⟨e + 1, by simpa using he, by simpa using hfn, ?_⟩
        intro k hk
        have := hall k hk
        rw [globInner_pattern_getD] at this
        simpa using this
    · rintro (h | ⟨e, he, hfn, hall⟩)
      · exact Or.inl (Or.inl h)
      · rcases e with _ | e
        · refine Or.inl (Or.inr ⟨by simpa using hfn, fun k hk => by simpa using hall k hk⟩)
        · refine Or.inr ⟨e, by simpa using he, ?_, ?_⟩
          · rw [globInner_pattern_getD]
            simpa using hfn
          · intro k hk
            rw [globInner_pattern_getD]
            have := hall k hk
            simpa using this

/-! ### The full selection engine -/

theorem bitset_new_bits_length (n : Nat) : (bitset_new n).bits.length = n := by
  simp [bitset_new]

theorem patterns_any_fnmatch (tokens : List String) (n : String) :
    (((tokens.map fun t => (⟨t, false⟩ : pattern_t)).any
        (fun p => fnmatch p.pattern n)) = true) ↔
      ∃ t ∈ tokens, fnmatch t n = true := by
  rw [List.any_eq_true]
  constructor
  · rintro ⟨p, hp, hfn⟩
    rcases List.mem_map.mp hp with ⟨t, ht, rfl⟩
    exact ⟨t, ht, hfn⟩
  · rintro ⟨t, ht, hfn⟩
    exact ⟨⟨t, false⟩, List.mem_map.mpr ⟨t, ht, rfl⟩, hfn⟩

theorem patterns_getD (tokens : List String) (j : Nat) :
    (tokens.map fun t => (⟨t, false⟩ : pattern_t)).getD j default =
      ⟨tokens.getD j "", false⟩ := by
  exact List.getD_map tokens "" (n := j) (fun t => (⟨t, false⟩ : pattern_t))

theorem zipSelect_bits_length (entries tokens : List String) :
    (zipSelect entries tokens).1.bits.length = entries.length := by
  match tokens with
  | [] => simp [zipSelect, bitset_set_all, bitset_new]
  | t0 :: ts =>
    rw [zipSelect]
    rw [globPass_bits_length, tokenPass_bits_length, bitset_new_bits_length]

theorem zipSelect_size (entries tokens : List String) :
    (zipSelect entries tokens).1.size = entries.length := by
  match tokens with
  | [] => simp [zipSelect, bitset_set_all, bitset_new]
  | t0 :: ts =>
    rw [zipSelect]
    rw [globPass_size, tokenPass_size]
    rfl

theorem zipSelect_patterns_length (entries tokens : List String) :
    (zipSelect entries tokens).2.length = tokens.length := by
  match tokens with
  | [] => rfl
  | t0 :: ts =>
    rw [zipSelect]
    rw [globPass_patterns_length, tokenPass_patterns, List.length_map]

theorem zipSelect_pattern_getD (entries tokens : List String) (j : Nat) :
    ((zipSelect entries tokens).2.getD j default).pattern = tokens.getD j "" := by
  match tokens with
  | [] =>
    simp only [zipSelect]
    rcases j with _ | j <;> rfl
  | t0 :: ts =>
    rw [zipSelect]
    rw [globPass_pattern_getD, tokenPass_patterns, patterns_getD]

theorem zipSelect_get_iff (entries tokens : List String) (hne : tokens ≠ []) (i : Nat) :
    bitset_get (zipSelect entries tokens).1 i = true ↔
      ((∃ t ∈ tokens, isLiteral t = true ∧ zip_name_locate entries t = some i) ∨
        (i < entries.length ∧ ∃ t ∈ tokens, fnmatch t (entries.getD i "") = true)) := by
  match tokens with
  | [] => exact absurd rfl hne
  | t0 :: ts =>
    rw [zipSelect]
    rw [globPass_get]
    rw [tokenPass_get, tokenPass_bits_length, tokenPass_patterns]
    simp only [bitset_get_new, bitset_new_bits_length, Nat.zero_add]
    constructor
    · rintro ((h | ⟨t, ht, hl, hz, _⟩) | ⟨j, hj, rfl, hlen, hany⟩)
      · cases h
      · exact Or.inl ⟨t, ht, hl, hz⟩
      · exact Or.inr ⟨hj, (patterns_any_fnmatch _ _).mp hany⟩
    · rintro (⟨t, ht, hl, hz⟩ | ⟨hi, t, ht, hfn⟩)
      · have hspec := (zip_name_locate_spec entries t i).mp hz
        exact Or.inl (Or.inr ⟨t, ht, hl, hz, hspec.1⟩)
      · exact Or.inr ⟨i, hi, rfl, hi, (patterns_any_fnmatch _ _).mpr ⟨t, ht, hfn⟩⟩

theorem zipSelect_matched_iff (entries tokens : List String) (j : Nat)
    (hj : j < tokens.length) :
    (((zipSelect entries tokens).2.getD j default).matched = true ↔
      ∃ e, e < entries.length ∧
        fnmatch (tokens.getD j "") (entries.getD e "") = true ∧
        ∀ k, k < j → fnmatch (tokens.getD k "") (entries.getD e "") = false) := by
  match tokens with
  | [] => simp at hj
  | t0 :: ts =>
    rw [zipSelect]
    rw [globPass_matched _ _ _ _ j
      (by rw [tokenPass_patterns, List.length_map]; exact hj)]
    rw [tokenPass_patterns]
    simp only [patterns_getD]
    simp

/-! ### Claim theorems -/

/-- C1: for every archive and non-empty token list, the glob pass marks every
entry whose name fnmatch-matches some token, and a token's matched flag ends
up true exactly when that token is, for some entry, the first token in input
order whose pattern fnmatch-matches that entry's name (first-match-wins per
entry, token order preserved, every entry index 0..n-1 visited). -/
theorem C1_glob_pass_first_match_wins (entries tokens : List String)
    (hne : tokens ≠ []) :
    (∀ i, i < entries.length →
        (∃ t ∈ tokens, fnmatch t (entries.getD i "") = true) →
        bitset_get (zipSelect entries tokens).1 i = true) ∧
    (∀ j, j < tokens.length →
        ((((zipSelect entries tokens).2.getD j default).matched = true) ↔
          ∃ i, i < entries.length ∧
            fnmatch (tokens.getD j "") (entries.getD i "") = true ∧
            ∀ k, k < j → fnmatch (tokens.getD k "") (entries.getD i "") = false)) := by
  constructor
  · rintro i hi ⟨t, ht, hfn⟩
    exact (zipSelect_get_iff entries tokens hne i).mpr (Or.inr ⟨hi, t, ht, hfn⟩)
  · intro j hj
    exact zipSelect_matched_iff entries tokens j hj

/-- Witness for C1 at archive `["x", "a"]` and tokens `["a", "*"]`. -/
theorem C1_glob_pass_first_match_wins_witness :
    (["a", "*"] : List String) ≠ [] ∧
    ((∀ i, i < (["x", "a"] : List String).length →
        (∃ t ∈ (["a", "*"] : List String),
          fnmatch t ((["x", "a"] : List String).getD i "") = true) →
        bitset_get (zipSelect ["x", "a"] ["a", "*"]).1 i = true) ∧
     (∀ j, j < (["a", "*"] : List String).length →
        ((((zipSelect ["x", "a"] ["a", "*"]).2.getD j default).matched = true) ↔
          ∃ i, i < (["x", "a"] : List String).length ∧
            fnmatch ((["a", "*"] : List String).getD j "")
              ((["x", "a"] : List String).getD i "") = true ∧
            ∀ k, k < j →
              fnmatch ((["a", "*"] : List String).getD k "")
                ((["x", "a"] : List String).getD i "") = false))) :=
  ⟨by decide, C1_glob_pass_first_match_wins ["x", "a"] ["a", "*"] (by decide)⟩

/-- C2 counterexample: on the archive `["a", "a"]` (two entries sharing one
name) the single literal token `"a"` marks BOTH indices, not only the lower
one: the exact lookup marks index 0, but the glob pass also tests the literal
token as a pattern against every entry and marks index 1 as well. -/
theorem C2_counterexample :
    isLiteral "a" = true ∧
    zip_name_locate ["a", "a"] "a" = some 0 ∧
    bitset_get (zipSelect ["a", "a"] ["a"]).1 0 = true ∧
    bitset_get (zipSelect ["a", "a"] ["a"]).1 1 = true := by decide

/-- C2 amended: with two entries `i < j` sharing name `t`, a literal
backslash-free token equal to `t` marks BOTH indices (the exact lookup
contributes the lower one, the glob pass both), and a glob token
fnmatch-matching `t` also marks both. -/
theorem C2_duplicate_names_marking (entries : List String) (i j : Nat)
    (t g : String) (hij : i < j) (hjlen : j < entries.length)
    (hi : entries.getD i "" = t) (hjn : entries.getD j "" = t)
    (hlit : isLiteral t = true) (hnb : ('\\' : Char) ∉ t.data)
    (hg : fnmatch g t = true) :
    (bitset_get (zipSelect entries [t]).1 i = true ∧
      bitset_get (zipSelect entries [t]).1 j = true) ∧
    (bitset_get (zipSelect entries [g]).1 i = true ∧
      bitset_get (zipSelect entries [g]).1 j = true) := by
  have hself : fnmatch t t = true := fnmatch_self_of_literal t hlit hnb
  have hilen : i < entries.length := Nat.lt_trans hij hjlen
  refine ⟨⟨?_, ?_⟩, ?_, ?_⟩
  · exact (zipSelect_get_iff entries [t] (by simp) i).mpr
      (Or.inr ⟨hilen, t, by simp, by rw [hi]; exact hself⟩)
  · exact (zipSelect_get_iff entries [t] (by simp) j).mpr
      (Or.inr ⟨hjlen, t, by simp, by rw [hjn]; exact hself⟩)
  · exact (zipSelect_get_iff entries [g] (by simp) i).mpr
      (Or.inr ⟨hilen, g, by simp, by rw [hi]; exact hg⟩)
  · exact (zipSelect_get_iff entries [g] (by simp) j).mpr
      (Or.inr ⟨hjlen, g, by simp, by rw [hjn]; exact hg⟩)

/-- Witness for the amended C2 at archive `["a", "a"]`, literal token `"a"`,
glob token `"?"`. -/
theorem C2_duplicate_names_marking_witness :
    ((0 : Nat) < 1 ∧ 1 < (["a", "a"] : List String).length ∧
      (["a", "a"] : List String).getD 0 "" = "a" ∧
      (["a", "a"] : List String).getD 1 "" = "a" ∧
      isLiteral "a" = true ∧ ('\\' : Char) ∉ "a".data ∧
      fnmatch "?" "a" = true) ∧
    ((bitset_get (zipSelect ["a", "a"] ["a"]).1 0 = true ∧
        bitset_get (zipSelect ["a", "a"] ["a"]).1 1 = true) ∧
      (bitset_get (zipSelect ["a", "a"] ["?"]).1 0 = true ∧
        bitset_get (zipSelect ["a", "a"] ["?"]).1 1 = true)) :=
  ⟨by decide,
    C2_duplicate_names_marking ["a", "a"] 0 1 "a" "?" (by decide) (by decide)
      (by decide) (by decide) (by decide) (by decide) (by decide)⟩

/-- C3 counterexample: on the archive `["a"]` with tokens `["*", "a"]` the
literal token `"a"` is exact-located successfully (index 0), yet after the
full entry pass its matched flag is still false and it is reported as
unmatched: the earlier token `"*"` matches entry 0 first and the inner loop
breaks before ever testing `"a"`. -/
theorem C3_counterexample :
    isLiteral "a" = true ∧
    zip_name_locate ["a"] "a" = some 0 ∧
    bitset_get (zipSelect ["a"] ["*", "a"]).1 0 = true ∧
    ((zipSelect ["a"] ["*", "a"]).2.getD 1 default).matched = false ∧
    unmatchedPatterns (zipSelect ["a"] ["*", "a"]).2 = ["a"] := by decide

/-- C3 amended: a literal token containing no backslash whose exact lookup
succeeds ends up with `matched = true` (and is not among the records the
diagnostic loop reports) PROVIDED no earlier token in input order
fnmatch-matches the entry found by the lookup; without that proviso the
first-match-wins break can leave the literal token untested, and a literal
token containing a backslash does not fnmatch-match its own name. -/
theorem C3_literal_matched_when_unshadowed (entries tokens : List String)
    (j idx : Nat) (hj : j < tokens.length)
    (hlit : isLiteral (tokens.getD j "") = true)
    (hnb : ('\\' : Char) ∉ (tokens.getD j "").data)
    (hloc : zip_name_locate entries (tokens.getD j "") = some idx)
    (hsh : ∀ k, k < j → fnmatch (tokens.getD k "") (entries.getD idx "") = false) :
    ((zipSelect entries tokens).2.getD j default).matched = true ∧
    (zipSelect entries tokens).2.getD j default ∉
      ((zipSelect entries tokens).2.filter (fun p => !p.matched)) := by
  have hspec := (zip_name_locate_spec entries (tokens.getD j "") idx).mp hloc
  have hself : fnmatch (tokens.getD j "") (entries.getD idx "") = true := by
    rw [hspec.2.1]
    exact fnmatch_self_of_literal _ hlit hnb
  have hm : ((zipSelect entries tokens).2.getD j default).matched = true :=
    (zipSelect_matched_iff entries tokens j hj).mpr ⟨idx, hspec.1, hself, hsh⟩
  refine ⟨hm, ?_⟩
  intro hmem
  have hfilter := List.of_mem_filter hmem
  rw [hm] at hfilter
  simp at hfilter

/-- Witness for the amended C3 at archive `["a"]`, tokens `["a"]`, token
index 0 (no earlier token can shadow it). -/
theorem C3_literal_matched_when_unshadowed_witness :
    ((0 : Nat) < (["a"] : List String).length ∧
      isLiteral ((["a"] : List String).getD 0 "") = true ∧
      ('\\' : Char) ∉ ((["a"] : List String).getD 0 "").data ∧
      zip_name_locate ["a"] ((["a"] : List String).getD 0 "") = some 0) ∧
    (((zipSelect ["a"] ["a"]).2.getD 0 default).matched = true ∧
      (zipSelect ["a"] ["a"]).2.getD 0 default ∉
        ((zipSelect ["a"] ["a"]).2.filter (fun p => !p.matched))) :=
  ⟨by decide,
    C3_literal_matched_when_unshadowed ["a"] ["a"] 0 0 (by decide) (by decide)
      (by decide) (by decide)
      (fun k hk => absurd hk (Nat.not_lt_zero k))⟩

/-- C4: selection with an empty token list creates no pattern records and
marks every index 0..n-1 of the membership set (whole-archive selection). -/
theorem C4_empty_tokens_select_all (entries : List String) :
    (zipSelect entries []).2 = [] ∧
    (zipSelect entries []).1.bits = List.replicate entries.length true ∧
    ∀ i, i < entries.length → bitset_get (zipSelect entries []).1 i = true := by
  refine ⟨rfl, ?_, ?_⟩
  · show (bitset_set_all (bitset_new entries.length)).bits = _
    simp [bitset_set_all, bitset_new]
  · intro i hi
    show bitset_get (bitset_set_all (bitset_new entries.length)) i = true
    rw [bitset_get_set_all]
    simpa [bitset_new] using hi

/-- Witness for C4 at the archive `["x", "y"]`. -/
theorem C4_empty_tokens_select_all_witness :
    (zipSelect ["x", "y"] []).2 = [] ∧
    (zipSelect ["x", "y"] []).1.bits =
      List.replicate (["x", "y"] : List String).length true ∧
    ∀ i, i < (["x", "y"] : List String).length →
      bitset_get (zipSelect ["x", "y"] []).1 i = true :=
  C4_empty_tokens_select_all ["x", "y"]

/-- C5 counterexample: a run of the test mode in which everything succeeds
(`zip_open` succeeds, `test_archive` returns 0, `zip_close` would succeed)
still exits with code 1, because `main` executes `exit(1)` right after the
`test_archive` call; the claim's "a successful run of the list or test mode
exits 0" is false for the test mode. -/
theorem C5_counterexample :
    unzipMain ['t'] ["a.zip"] (some ["f"]) true true 0 0 = Outcome.exited 1 := by
  decide

/-- C5 amended: exit 0 on help and version; a list run exits 1 on close
failure and otherwise returns `list_archive`'s value (0 on success); exit 1
on no archive path, open failure, mode conflict and unrecognized option; the
extract (default) and test modes always exit 1; a pattern-table allocation
failure does not exit 1 but continues into undefined behavior (crash). -/
theorem C5_exit_codes (args : List String) (p t0 : String) (toks : List String)
    (es : List String) (openRes : Option (List String)) (pA cOk : Bool)
    (lr tr : Nat) :
    unzipMain ['h'] args openRes pA cOk lr tr = Outcome.exited 0 ∧
    unzipMain ['V'] args openRes pA cOk lr tr = Outcome.exited 0 ∧
    unzipMain [] [] openRes pA cOk lr tr = Outcome.exited 1 ∧
    unzipMain [] (p :: toks) none pA cOk lr tr = Outcome.exited 1 ∧
    unzipMain ['l', 't'] args openRes pA cOk lr tr = Outcome.exited 1 ∧
    unzipMain ['x'] args openRes pA cOk lr tr = Outcome.exited 1 ∧
    unzipMain ['l'] (p :: toks) (some es) true false lr tr = Outcome.exited 1 ∧
    unzipMain ['l'] (p :: toks) (some es) true true lr tr = Outcome.exited lr ∧
    unzipMain ['t'] (p :: toks) (some es) true cOk lr tr = Outcome.exited 1 ∧
    unzipMain [] (p :: toks) (some es) true cOk lr tr = Outcome.exited 1 ∧
    unzipMain [] (p :: t0 :: toks) (some es) false cOk lr tr = Outcome.crashed := by
  refine ⟨rfl, rfl, rfl, rfl, rfl, rfl, ?_, ?_, ?_, ?_, rfl⟩ <;>
    rcases toks with _ | ⟨x, xs⟩ <;> rfl

/-- C6: the claim (and the `/* die */ ` comments in the source) say an
allocation failure for the core structures is fatal with a non-zero exit; in
the code the branch for a failed pattern-table `malloc` is empty, so the run
continues into a write through the NULL pattern table (undefined behavior,
modelled as `crashed`) instead of exiting, and the membership-set allocation
is never even checked. -/
theorem C6_alloc_failure_crashes :
    unzipMain [] ["a.zip", "tok"] (some ["f"]) false true 0 0 = Outcome.crashed ∧
    unzipMain [] ["a.zip", "tok"] (some ["f"]) false true 0 0 ≠
      Outcome.exited 1 := by decide

/-- C7: the final membership set does not depend on token order (any
permutation of the token list marks the same indices), while the token
credited with `matched = true` for an entry several patterns match is the
first one in input order. -/
theorem C7_membership_order_independent (entries tokens tokens' : List String)
    (hperm : tokens.Perm tokens') (hne : tokens ≠ []) :
    (∀ i, bitset_get (zipSelect entries tokens).1 i =
        bitset_get (zipSelect entries tokens').1 i) ∧
    (∀ j, j < tokens.length →
        ((((zipSelect entries tokens).2.getD j default).matched = true) ↔
          ∃ i, i < entries.length ∧
            fnmatch (tokens.getD j "") (entries.getD i "") = true ∧
            ∀ k, k < j → fnmatch (tokens.getD k "") (entries.getD i "") = false)) := by
  have hne' : tokens' ≠ [] := by
    intro h
    apply hne
    have hlen := hperm.length_eq
    rw [h] at hlen
    exact List.length_eq_zero.mp hlen
  constructor
  · intro i
    rw [Bool.eq_iff_iff]
    rw [zipSelect_get_iff entries tokens hne i,
      zipSelect_get_iff entries tokens' hne' i]
    constructor
    · rintro (⟨t, ht, h⟩ | ⟨hi, t, ht, h⟩)
      · exact Or.inl ⟨t, hperm.mem_iff.mp ht, h⟩
      · exact Or.inr ⟨hi, t, hperm.mem_iff.mp ht, h⟩
    · rintro (⟨t, ht, h⟩ | ⟨hi, t, ht, h⟩)
      · exact Or.inl ⟨t, hperm.mem_iff.mpr ht, h⟩
      · exact Or.inr ⟨hi, t, hperm.mem_iff.mpr ht, h⟩
  · exact fun j hj => zipSelect_matched_iff entries tokens j hj

/-- Witness for C7 at archive `["a", "b"]`, token lists `["a", "*"]` and its
permutation `["*", "a"]`. -/
theorem C7_membership_order_independent_witness :
    ((["a", "*"] : List String).Perm ["*", "a"] ∧
      (["a", "*"] : List String) ≠ []) ∧
    ((∀ i, bitset_get (zipSelect ["a", "b"] ["a", "*"]).1 i =
        bitset_get (zipSelect ["a", "b"] ["*", "a"]).1 i) ∧
     (∀ j, j < (["a", "*"] : List String).length →
        ((((zipSelect ["a", "b"] ["a", "*"]).2.getD j default).matched = true) ↔
          ∃ i, i < (["a", "b"] : List String).length ∧
            fnmatch ((["a", "*"] : List String).getD j "")
              ((["a", "b"] : List String).getD i "") = true ∧
            ∀ k, k < j →
              fnmatch ((["a", "*"] : List String).getD k "")
                ((["a", "b"] : List String).getD i "") = false))) :=
  ⟨⟨by decide, by decide⟩,
    C7_membership_order_independent ["a", "b"] ["a", "*"] ["*", "a"]
      (by decide) (by decide)⟩

/-- C8: the membership set produced by a selection run has size equal to the
archive's entry count fixed at creation; `bitset_set` and `bitset_set_all`
(the only mutators the selection uses) preserve that size, both passes of the
engine preserve it, and a marked index stays marked through `bitset_set`,
`bitset_set_all` and both passes — the set is never cleared mid-run. -/
theorem C8_membership_set_invariants (entries tokens ts names : List String)
    (s : bitset_t) (ps : List pattern_t) (st i j : Nat)
    (hinv : s.bits.length = s.size) (hmark : bitset_get s j = true) :
    ((zipSelect entries tokens).1.size = entries.length ∧
      (zipSelect entries tokens).1.bits.length = entries.length) ∧
    ((bitset_new entries.length).size = entries.length ∧
      (bitset_new entries.length).bits.length = entries.length) ∧
    ((bitset_set s i).size = s.size ∧
      (bitset_set s i).bits.length = s.bits.length ∧
      (bitset_set_all s).size = s.size ∧
      (bitset_set_all s).bits.length = s.bits.length) ∧
    (bitset_get (bitset_set s i) j = true ∧
      bitset_get (bitset_set_all s) j = true) ∧
    ((tokenPass entries ts s).1.size = s.size ∧
      (tokenPass entries ts s).1.bits.length = s.bits.length ∧
      bitset_get (tokenPass entries ts s).1 j = true) ∧
    ((globPass st names s ps).1.size = s.size ∧
      (globPass st names s ps).1.bits.length = s.bits.length ∧
      bitset_get (globPass st names s ps).1 j = true) := by
  have hjlt : j < s.bits.length := by
    by_contra hc
    rw [bitset_get, List.getD_eq_default _ _ (Nat.le_of_not_lt hc)] at hmark
    cases hmark
  refine ⟨⟨zipSelect_size entries tokens, zipSelect_bits_length entries tokens⟩,
    ⟨rfl, bitset_new_bits_length entries.length⟩,
    ⟨rfl, bitset_set_bits_length s i, rfl, ?_⟩, ⟨?_, ?_⟩, ⟨?_, ?_, ?_⟩, ⟨?_, ?_, ?_⟩⟩
  · simp [bitset_set_all, hinv]
  · exact bitset_get_set_of_get s i j hmark
  · rw [bitset_get_set_all]
    simp only [decide_eq_true_iff]
    omega
  · exact tokenPass_size entries ts s
  · exact tokenPass_bits_length entries ts s
  · exact (tokenPass_get entries ts s j).mpr (Or.inl hmark)
  · exact globPass_size names st s ps
  · exact globPass_bits_length names st s ps
  · exact (globPass_get names st s ps j).mpr (Or.inl hmark)

/-- Witness for C8 at a concrete archive, token lists and a concrete bitset
with bit 0 already marked. -/
theorem C8_membership_set_invariants_witness :
    ((⟨2, [true, false]⟩ : bitset_t).bits.length =
        (⟨2, [true, false]⟩ : bitset_t).size ∧
      bitset_get ⟨2, [true, false]⟩ 0 = true) ∧
    (((zipSelect ["e"] ["t"]).1.size = (["e"] : List String).length ∧
        (zipSelect ["e"] ["t"]).1.bits.length = (["e"] : List String).length) ∧
      ((bitset_new (["e"] : List String).length).size =
          (["e"] : List String).length ∧
        (bitset_new (["e"] : List String).length).bits.length =
          (["e"] : List String).length) ∧
      ((bitset_set ⟨2, [true, false]⟩ 1).size =
          (⟨2, [true, false]⟩ : bitset_t).size ∧
        (bitset_set ⟨2, [true, false]⟩ 1).bits.length =
          (⟨2, [true, false]⟩ : bitset_t).bits.length ∧
        (bitset_set_all ⟨2, [true, false]⟩).size =
          (⟨2, [true, false]⟩ : bitset_t).size ∧
        (bitset_set_all ⟨2, [true, false]⟩).bits.length =
          (⟨2, [true, false]⟩ : bitset_t).bits.length) ∧
      (bitset_get (bitset_set ⟨2, [true, false]⟩ 1) 0 = true ∧
        bitset_get (bitset_set_all ⟨2, [true, false]⟩) 0 = true) ∧
      ((tokenPass ["e"] ["u"] ⟨2, [true, false]⟩).1.size =
          (⟨2, [true, false]⟩ : bitset_t).size ∧
        (tokenPass ["e"] ["u"] ⟨2, [true, false]⟩).1.bits.length =
          (⟨2, [true, false]⟩ : bitset_t).bits.length ∧
        bitset_get (tokenPass ["e"] ["u"] ⟨2, [true, false]⟩).1 0 = true) ∧
      ((globPass 5 ["n"] ⟨2, [true, false]⟩ [⟨"q", false⟩]).1.size =
          (⟨2, [true, false]⟩ : bitset_t).size ∧
        (globPass 5 ["n"] ⟨2, [true, false]⟩ [⟨"q", false⟩]).1.bits.length =
          (⟨2, [true, false]⟩ : bitset_t).bits.length ∧
        bitset_get (globPass 5 ["n"] ⟨2, [true, false]⟩ [⟨"q", false⟩]).1 0 = true)) :=
  ⟨⟨by decide, by decide⟩,
    C8_membership_set_invariants ["e"] ["t"] ["u"] ["n"] ⟨2, [true, false]⟩
      [⟨"q", false⟩] 5 1 0 (by decide) (by decide)⟩

/-- C9: selection is sound — every marked index is either the lowest index
whose entry name equals some literal token, or an index whose entry name
fnmatch-matches some token; an entry satisfying no token is never marked. -/
theorem C9_selection_sound (entries tokens : List String) (hne : tokens ≠ [])
    (i : Nat) (hi : bitset_get (zipSelect entries tokens).1 i = true) :
    (∃ t ∈ tokens, isLiteral t = true ∧ i < entries.length ∧
        entries.getD i "" = t ∧ ∀ k, k < i → entries.getD k "" ≠ t) ∨
    (i < entries.length ∧ ∃ t ∈ tokens, fnmatch t (entries.getD i "") = true) := by
  rcases (zipSelect_get_iff entries tokens hne i).mp hi with ⟨t, ht, hl, hz⟩ | h
  · have hspec := (zip_name_locate_spec entries t i).mp hz
    exact Or.inl ⟨t, ht, hl, hspec.1, hspec.2.1, hspec.2.2⟩
  · exact Or.inr h

/-- Witness for C9 at archive `["a", "b"]`, tokens `["a"]`, index 0. -/
theorem C9_selection_sound_witness :
    ((["a"] : List String) ≠ [] ∧
      bitset_get (zipSelect ["a", "b"] ["a"]).1 0 = true) ∧
    ((∃ t ∈ (["a"] : List String), isLiteral t = true ∧
        0 < (["a", "b"] : List String).length ∧
        (["a", "b"] : List String).getD 0 "" = t ∧
        ∀ k, k < 0 → (["a", "b"] : List String).getD k "" ≠ t) ∨
      (0 < (["a", "b"] : List String).length ∧
        ∃ t ∈ (["a"] : List String),
          fnmatch t ((["a", "b"] : List String).getD 0 "") = true)) :=
  ⟨⟨by decide, by decide⟩,
    C9_selection_sound ["a", "b"] ["a"] (by decide) 0 (by decide)⟩

/-- C10: giving the same mode flag twice (`-l -l` or `-t -t`) takes the
"only one mode selection allowed" branch and exits with code 1, even though
only one distinct mode was requested. -/
theorem C10_duplicate_mode_flag_conflict (args : List String)
    (openRes : Option (List String)) (pA cOk : Bool) (lr tr : Nat) :
    optLoop runmode_t.MODE_EXTRACT ['l', 'l'] =
      Except.error OptExit.modeConflict ∧
    optLoop runmode_t.MODE_EXTRACT ['t', 't'] =
      Except.error OptExit.modeConflict ∧
    unzipMain ['l', 'l'] args openRes pA cOk lr tr = Outcome.exited 1 ∧
    unzipMain ['t', 't'] args openRes pA cOk lr tr = Outcome.exited 1 :=
  ⟨rfl, rfl, rfl, rfl⟩
